import Mathlib

/-!
Verification of the level-2 order book engine and order-manager actor
(crate `engine`, `src/engine/src/lib.rs`, and crate `server`,
`src/server/src/main.rs`).

Modelling conventions:
* `BigDecimal` prices are embedded as `ℚ` (exact values, totally ordered by
  mathematical value, used as map keys).
* `usize` quantities, order ids and client ids are embedded as `ℕ`
  (arithmetic overflow of `usize` is out of scope).
* `BTreeMap` and `HashMap` are embedded as association lists kept sorted by
  key with distinct keys (the canonical representation: two maps are equal
  iff their canonical lists are equal).
* Rust panics are embedded as an `Option EngineError` component of each
  operation's result, paired with the state the book holds at the moment of
  the panic (the code mutates `self` in place, so mutations performed
  before the panic survive in the state).  The named errors follow the
  spec's taxonomy; `InternalError` stands for the remaining `expect`
  panics on broken internal invariants.
-/

namespace OrderLevel2

/-- Side of the trade (`enum Side` in `src/engine/src/lib.rs`). -/
inductive Side where
  | Bid
  | Ask
deriving DecidableEq, Repr

/-- The error taxonomy of spec §7 for the engine's failure conditions
(the source raises them as panics). `InternalError` covers the
`expect` panics that signal a broken internal invariant
(missing price level on cancel/trade, depth underflow). -/
inductive EngineError where
  | DuplicateOrderId
  | UnknownOrderId
  | OvertradeError
  | NoSuchPriceLevel
  | EmptyBook
  | InternalError
deriving DecidableEq, Repr

section KV

variable {K V : Type}

/-- Map lookup on an association list (`BTreeMap::get` / `HashMap::get`). -/
def lookupKV [DecidableEq K] : List (K × V) → K → Option V
  | [], _ => none
  | (k, v) :: rest, key => if key = k then some v else lookupKV rest key

/-- Map insert/overwrite on a key-sorted association list
(`BTreeMap::insert` / `HashMap::insert`; also the write through
`entry(..).or_insert(..)` or `get_mut`). -/
def insertKV [LinearOrder K] : List (K × V) → K → V → List (K × V)
  | [], key, v => [(key, v)]
  | (k, w) :: rest, key, v =>
    if key < k then (key, v) :: (k, w) :: rest
    else if key = k then (key, v) :: rest
    else (k, w) :: insertKV rest key v

/-- Map removal (`BTreeMap::remove` / `HashMap::remove`).  It erases every
entry with the given key; on the distinct-key lists that represent maps
this is exactly the removal of the single entry. -/
def eraseKV [DecidableEq K] : List (K × V) → K → List (K × V)
  | [], _ => []
  | (k, v) :: rest, key =>
    if k = key then eraseKV rest key else (k, v) :: eraseKV rest key

/-- The keys are strictly increasing: the well-formedness of the canonical
association-list representation of a map. -/
def SortedKeys [LinearOrder K] (l : List (K × V)) : Prop :=
  l.Pairwise (fun a b => a.1 < b.1)

end KV

/-- `struct OrderBook`: two price-sorted depth maps plus the order index
(`HashMap<ℕ, (Side, BigDecimal, ℕ)>`, in canonical id-sorted
form). -/
structure OrderBook where
  bids : List (ℚ × ℕ)
  asks : List (ℚ × ℕ)
  orders : List (ℕ × (Side × ℚ × ℕ))
deriving DecidableEq, Repr

/-- The side selection `match side { Ask => &mut self.asks, Bid => &mut self.bids }`. -/
def sideDepth (b : OrderBook) : Side → List (ℚ × ℕ)
  | .Bid => b.bids
  | .Ask => b.asks

/-- Writing the selected side's depth map back into the book. -/
def setSideDepth (b : OrderBook) : Side → List (ℚ × ℕ) → OrderBook
  | .Bid, l => { b with bids := l }
  | .Ask, l => { b with asks := l }

/-- `OrderBook::default()`. -/
def emptyBook : OrderBook := ⟨[], [], []⟩

/-- The book is well formed: all three maps are in canonical sorted form. -/
def WF (b : OrderBook) : Prop :=
  SortedKeys b.bids ∧ SortedKeys b.asks ∧ SortedKeys b.orders

instance {K V : Type} [LinearOrder K] (l : List (K × V)) :
    Decidable (SortedKeys l) := by
  unfold SortedKeys; infer_instance

instance (b : OrderBook) : Decidable (WF b) := by
  unfold WF; infer_instance

instance {ε α : Type} [DecidableEq ε] [DecidableEq α] :
    DecidableEq (Except ε α) := fun a b => by
  cases a <;> cases b
  case error.error e f =>
    exact if h : e = f then isTrue (by rw [h])
          else isFalse (fun hc => h (by injection hc))
  case error.ok e x => exact isFalse (fun hc => Except.noConfusion hc)
  case ok.error x e => exact isFalse (fun hc => Except.noConfusion hc)
  case ok.ok x y =>
    exact if h : x = y then isTrue (by rw [h])
          else isFalse (fun hc => h (by injection hc))

/-- `OrderBook::on_new_order`.  The source first bumps the side's depth at
`price` via `entry(price).or_insert(0); *order_depth += quantity`, then
executes `self.orders.insert(order_id, ..)` — which overwrites any existing
entry — and only then panics (`DuplicateOrderId`) if the id was already
present, so the depth bump and the overwrite survive in the failed state. -/
def on_new_order (b : OrderBook) (side : Side) (price : ℚ)
    (quantity : ℕ) (order_id : ℕ) :
    Option EngineError × OrderBook :=
  let book := sideDepth b side
  let book' := insertKV book price ((lookupKV book price).getD 0 + quantity)
  let b' := setSideDepth b side book'
  let b'' := { b' with orders := insertKV b'.orders order_id (side, price, quantity) }
  (if (lookupKV b.orders order_id).isSome then some .DuplicateOrderId else none, b'')

/-- `OrderBook::on_cancel_order`.  `orders.remove` happens first; the panic
on an unknown id leaves the book untouched, while the later `expect`/underflow
panics (`InternalError`) occur after the index entry is already removed. -/
def on_cancel_order (b : OrderBook) (order_id : ℕ) :
    Option EngineError × OrderBook :=
  match lookupKV b.orders order_id with
  | none => (some .UnknownOrderId, b)
  | some (side, price, quantity) =>
    let b1 : OrderBook := { b with orders := eraseKV b.orders order_id }
    match lookupKV (sideDepth b1 side) price with
    | none => (some .InternalError, b1)
    | some d =>
      if d < quantity then (some .InternalError, b1)
      else
        let d' := d - quantity
        let book' := if d' = 0 then eraseKV (sideDepth b1 side) price
                     else insertKV (sideDepth b1 side) price d'
        (none, setSideDepth b1 side book')

/-- `OrderBook::on_replace_order`: look up the side (panicking
`UnknownOrderId` if absent), then literally `on_cancel_order` followed by
`on_new_order` under the same id and side. -/
def on_replace_order (b : OrderBook) (price : ℚ) (quantity : ℕ)
    (order_id : ℕ) : Option EngineError × OrderBook :=
  match lookupKV b.orders order_id with
  | none => (some .UnknownOrderId, b)
  | some (side, _, _) =>
    match on_cancel_order b order_id with
    | (some e, b1) => (some e, b1)
    | (none, b1) => on_new_order b1 side price quantity order_id

/-- `OrderBook::on_trade`.  `checked_sub(..).expect(..)` panics
(`OvertradeError`) before the write when the trade exceeds the resting
quantity; otherwise the order's quantity is reduced in place and then the
level's depth is reduced by the same amount.  Nothing is ever removed: a
fully traded order stays in the index with quantity 0 and its level stays
in the depth map even at aggregate 0. -/
def on_trade (b : OrderBook) (quantity : ℕ) (resting_order_id : ℕ) :
    Option EngineError × OrderBook :=
  match lookupKV b.orders resting_order_id with
  | none => (some .UnknownOrderId, b)
  | some (side, price, resting_quantity) =>
    if resting_quantity < quantity then (some .OvertradeError, b)
    else
      let b1 : OrderBook :=
        { b with orders := insertKV b.orders resting_order_id
                             (side, price, resting_quantity - quantity) }
      match lookupKV (sideDepth b1 side) price with
      | none => (some .InternalError, b1)
      | some d =>
        if d < quantity then (some .InternalError, b1)
        else (none, setSideDepth b1 side
                      (insertKV (sideDepth b1 side) price (d - quantity)))

/-- `OrderBook::get_size_for_price_level`.  The Rust method takes
`&mut self`; its body only reads, so the state component of the result is
the book it was handed. -/
def get_size_for_price_level (b : OrderBook) (side : Side) (price : ℚ) :
    (Except EngineError ℕ) × OrderBook :=
  (match lookupKV (sideDepth b side) price with
   | some q => .ok q
   | none => .error .NoSuchPriceLevel, b)

/-- `OrderBook::get_book_depth`: the number of levels on the side. -/
def get_book_depth (b : OrderBook) (side : Side) : ℕ :=
  (sideDepth b side).length

/-- `OrderBook::get_top_of_book`: `bids.iter().rev().next()` is the last
(maximal) key of the sorted bid map, `asks.iter().next()` the first
(minimal) key of the ask map; `expect` panics (`EmptyBook`) when the side
is empty. -/
def get_top_of_book (b : OrderBook) (side : Side) : Except EngineError ℚ :=
  match side with
  | .Bid =>
    match b.bids.getLast? with
    | some pd => .ok pd.1
    | none => .error .EmptyBook
  | .Ask =>
    match b.asks.head? with
    | some pd => .ok pd.1
    | none => .error .EmptyBook

/-- One mutating engine operation (the lifecycle events of the trait
`Level2View`). -/
inductive EngineOp where
  | place (side : Side) (price : ℚ) (quantity : ℕ) (order_id : ℕ)
  | cancel (order_id : ℕ)
  | replace (price : ℚ) (quantity : ℕ) (order_id : ℕ)
  | trade (quantity : ℕ) (resting_order_id : ℕ)
deriving DecidableEq, Repr

/-- Dispatch one lifecycle event to the engine. -/
def applyOp (b : OrderBook) : EngineOp → Option EngineError × OrderBook
  | .place side price quantity order_id => on_new_order b side price quantity order_id
  | .cancel order_id => on_cancel_order b order_id
  | .replace price quantity order_id => on_replace_order b price quantity order_id
  | .trade quantity resting_order_id => on_trade b quantity resting_order_id

/-- Book states reachable from the empty book by successful lifecycle
events (a failing event terminates the process in the source). -/
inductive Reachable : OrderBook → Prop where
  | empty : Reachable emptyBook
  | step {b b' : OrderBook} {op : EngineOp} :
      Reachable b → applyOp b op = (none, b') → Reachable b'

/-- The aggregate quantity of the index's orders resting on `side` at
`price`: what spec invariant I1 requires a depth level to equal. -/
def levelSum : List (ℕ × (Side × ℚ × ℕ)) → Side → ℚ → ℕ
  | [], _, _ => 0
  | (_, (s, p, q)) :: rest, side, price =>
    (if s = side ∧ p = price then q else 0) + levelSum rest side price

/-! ### The Order Manager Actor (`server_loop` in `src/server/src/main.rs`)

Only the state the disconnect handler touches is modelled: the outbound
sinks of `HashMap<ℕ, UnboundedSender<ToClient>>` are not values, so
the client registry is embedded as the canonical sorted list of its keys. -/

/-- Removal of one element from a sorted list of ids
(`HashMap::remove` on the registry's key set). -/
def removeNat : List ℕ → ℕ → List ℕ
  | [], _ => []
  | x :: rest, k => if x = k then removeNat rest k else x :: removeNat rest k

/-- The mutable state owned by `server_loop`: the book, the two counters,
the registry key set, and the per-client owned-order lists. -/
structure ServerState where
  order_book : OrderBook
  order_counter : ℕ
  client_counter : ℕ
  clients : List ℕ
  client_orders : List (ℕ × List ℕ)
deriving DecidableEq, Repr

/-- The loop `for cancel_order in client_orders { order_book.on_cancel_order(..) }`:
cancels in list order; a panic inside `on_cancel_order` aborts the loop
with the book in its partially cancelled state. -/
def cancelAll (b : OrderBook) : List ℕ → Option EngineError × OrderBook
  | [] => (none, b)
  | oid :: rest =>
    match on_cancel_order b oid with
    | (none, b1) => cancelAll b1 rest
    | (some e, b1) => (some e, b1)

/-- The `ToOrderManager::ClientDisconnected(client_id)` arm of `server_loop`:
cancel every owned order (a panic there kills the task before any registry
cleanup), then remove the client from `clients` and `client_orders`. -/
def handleClientDisconnected (s : ServerState) (client_id : ℕ) :
    Option EngineError × ServerState :=
  match lookupKV s.client_orders client_id with
  | none =>
    (none, { s with clients := removeNat s.clients client_id,
                    client_orders := eraseKV s.client_orders client_id })
  | some orderList =>
    match cancelAll s.order_book orderList with
    | (some e, b') => (some e, { s with order_book := b' })
    | (none, b') =>
      (none, { s with order_book := b',
                      clients := removeNat s.clients client_id,
                      client_orders := eraseKV s.client_orders client_id })

/-! ### Lemmas about the canonical association lists -/

section KVLemmas

variable {K V : Type} [LinearOrder K]

theorem lookup_insert_self (l : List (K × V)) (k : K) (v : V) :
    lookupKV (insertKV l k v) k = some v := by
  induction l with
  | nil => simp [insertKV, lookupKV]
  | cons e rest ih =>
    obtain ⟨k1, v1⟩ := e
    by_cases h1 : k < k1
    · simp [insertKV, h1, lookupKV]
    · by_cases h2 : k = k1
      · simp [insertKV, h1, h2, lookupKV]
      · simp [insertKV, h1, h2, lookupKV, ih]

theorem lookup_insert_ne (l : List (K × V)) (k k' : K) (v : V) (hne : k' ≠ k) :
    lookupKV (insertKV l k v) k' = lookupKV l k' := by
  induction l with
  | nil => simp [insertKV, lookupKV, hne]
  | cons e rest ih =>
    obtain ⟨k1, v1⟩ := e
    by_cases h1 : k < k1
    · simp [insertKV, h1, lookupKV, hne]
    · by_cases h2 : k = k1
      · subst h2
        simp [insertKV, h1, lookupKV, hne]
      · simp only [insertKV, if_neg h1, if_neg h2, lookupKV]
        by_cases h3 : k' = k1
        · simp [h3]
        · simp [h3, ih]

theorem lookup_erase_self (l : List (K × V)) (k : K) :
    lookupKV (eraseKV l k) k = none := by
  induction l with
  | nil => simp [eraseKV, lookupKV]
  | cons e rest ih =>
    obtain ⟨k1, v1⟩ := e
    by_cases h1 : k1 = k
    · simp [eraseKV, h1, ih]
    · have : k ≠ k1 := fun h => h1 h.symm
      simp [eraseKV, h1, lookupKV, this, ih]

theorem lookup_erase_ne (l : List (K × V)) (k k' : K) (hne : k' ≠ k) :
    lookupKV (eraseKV l k) k' = lookupKV l k' := by
  induction l with
  | nil => simp [eraseKV]
  | cons e rest ih =>
    obtain ⟨k1, v1⟩ := e
    by_cases h1 : k1 = k
    · subst h1
      simp [eraseKV, lookupKV, hne, ih]
    · simp only [eraseKV, if_neg h1, lookupKV]
      by_cases h3 : k' = k1
      · simp [h3]
      · simp [h3, ih]

theorem erase_of_lookup_none (l : List (K × V)) (k : K)
    (h : lookupKV l k = none) : eraseKV l k = l := by
  induction l with
  | nil => simp [eraseKV]
  | cons e rest ih =>
    obtain ⟨k1, v1⟩ := e
    simp only [lookupKV] at h
    by_cases h2 : k = k1
    · simp [h2] at h
    · have h1 : ¬ k1 = k := fun hh => h2 hh.symm
      simp only [if_neg h2] at h
      simp [eraseKV, h1, ih h]

theorem erase_insert_of_lookup_none (l : List (K × V)) (k : K) (v : V)
    (h : lookupKV l k = none) : eraseKV (insertKV l k v) k = l := by
  induction l with
  | nil => simp [insertKV, eraseKV]
  | cons e rest ih =>
    obtain ⟨k1, v1⟩ := e
    simp only [lookupKV] at h
    by_cases h2 : k = k1
    · simp [h2] at h
    · simp only [if_neg h2] at h
      have h1 : ¬ k1 = k := fun hh => h2 hh.symm
      by_cases h3 : k < k1
      · simp [insertKV, h3, eraseKV, h1,
              erase_of_lookup_none _ _ h]
      · simp [insertKV, h3, h2, eraseKV, h1, ih h]

theorem lookup_mem (l : List (K × V)) (k : K) (v : V)
    (h : lookupKV l k = some v) : (k, v) ∈ l := by
  induction l with
  | nil => simp [lookupKV] at h
  | cons e rest ih =>
    obtain ⟨k1, v1⟩ := e
    simp only [lookupKV] at h
    by_cases h2 : k = k1
    · simp only [if_pos h2] at h
      obtain rfl := h2
      obtain rfl : v1 = v := by injection h
      exact List.mem_cons_self _ _
    · simp only [if_neg h2] at h
      exact List.mem_cons_of_mem _ (ih h)

theorem lookup_isSome_of_mem (l : List (K × V)) (k : K) (v : V)
    (h : (k, v) ∈ l) : (lookupKV l k).isSome = true := by
  induction l with
  | nil => simp at h
  | cons e rest ih =>
    obtain ⟨k1, v1⟩ := e
    by_cases h2 : k = k1
    · simp [lookupKV, h2]
    · simp only [lookupKV, if_neg h2]
      rcases List.mem_cons.mp h with h3 | h3
      · exact absurd (congrArg Prod.fst h3) h2
      · exact ih h3

theorem lookup_none_of_forall_lt (l : List (K × V)) (k : K)
    (h : ∀ e ∈ l, k < e.1) : lookupKV l k = none := by
  induction l with
  | nil => simp [lookupKV]
  | cons e rest ih =>
    obtain ⟨k1, v1⟩ := e
    have hk : k ≠ k1 := ne_of_lt (h (k1, v1) (List.mem_cons_self _ _))
    simp only [lookupKV, if_neg hk]
    exact ih (fun e he => h e (List.mem_cons_of_mem _ he))

theorem insert_eq_self_of_lookup (l : List (K × V)) (k : K) (v : V)
    (hs : SortedKeys l) (h : lookupKV l k = some v) : insertKV l k v = l := by
  induction l with
  | nil => simp [lookupKV] at h
  | cons e rest ih =>
    obtain ⟨k1, v1⟩ := e
    rw [SortedKeys, List.pairwise_cons] at hs
    simp only [lookupKV] at h
    by_cases h2 : k = k1
    · simp only [if_pos h2] at h
      obtain rfl := h2
      obtain rfl : v1 = v := by injection h
      simp [insertKV]
    · simp only [if_neg h2] at h
      have hmem : (k, v) ∈ rest := lookup_mem _ _ _ h
      have hlt : k1 < k := hs.1 (k, v) hmem
      have h3 : ¬ k < k1 := not_lt_of_gt hlt
      simp [insertKV, h3, h2, ih hs.2 h]

theorem insert_insert (l : List (K × V)) (k : K) (v w : V) :
    insertKV (insertKV l k v) k w = insertKV l k w := by
  induction l with
  | nil => simp [insertKV]
  | cons e rest ih =>
    obtain ⟨k1, v1⟩ := e
    by_cases h1 : k < k1
    · simp [insertKV, h1, lt_irrefl]
    · by_cases h2 : k = k1
      · simp [insertKV, h1, h2, lt_irrefl]
      · simp [insertKV, h1, h2, ih]

theorem mem_insert (l : List (K × V)) (k : K) (v : V) :
    ∀ e ∈ insertKV l k v, e ∈ l ∨ e = (k, v) := by
  induction l with
  | nil => simp [insertKV]
  | cons hd rest ih =>
    obtain ⟨k1, v1⟩ := hd
    intro e he
    by_cases h1 : k < k1
    · simp only [insertKV, if_pos h1] at he
      rcases List.mem_cons.mp he with h | h
      · exact Or.inr h
      · exact Or.inl h
    · by_cases h2 : k = k1
      · simp only [insertKV, if_neg h1, if_pos h2] at he
        rcases List.mem_cons.mp he with h | h
        · exact Or.inr h
        · exact Or.inl (List.mem_cons_of_mem _ h)
      · simp only [insertKV, if_neg h1, if_neg h2] at he
        rcases List.mem_cons.mp he with h | h
        · exact Or.inl (h ▸ List.mem_cons_self _ _)
        · rcases ih e h with h3 | h3
          · exact Or.inl (List.mem_cons_of_mem _ h3)
          · exact Or.inr h3

theorem sorted_insert (l : List (K × V)) (k : K) (v : V)
    (hs : SortedKeys l) : SortedKeys (insertKV l k v) := by
  induction l with
  | nil => simp [insertKV, SortedKeys]
  | cons e rest ih =>
    obtain ⟨k1, v1⟩ := e
    rw [SortedKeys, List.pairwise_cons] at hs
    by_cases h1 : k < k1
    · rw [SortedKeys]
      simp only [insertKV, if_pos h1, List.pairwise_cons]
      refine ⟨?_, ?_⟩
      · intro e he
        rcases List.mem_cons.mp he with h | h
        · exact h ▸ h1
        · exact lt_trans h1 (hs.1 e h)
      · exact hs
    · by_cases h2 : k = k1
      · rw [SortedKeys]
        simp only [insertKV, if_neg h1, if_pos h2, List.pairwise_cons]
        exact ⟨fun e he => h2 ▸ hs.1 e he, hs.2⟩
      · rw [SortedKeys]
        simp only [insertKV, if_neg h1, if_neg h2, List.pairwise_cons]
        refine ⟨?_, ih hs.2⟩
        intro e he
        rcases mem_insert rest k v e he with h | h
        · exact hs.1 e h
        · have : k1 < k := lt_of_le_of_ne (not_lt.mp h1) (fun hh => h2 hh.symm)
          exact h ▸ this

theorem erase_sublist (l : List (K × V)) (k : K) :
    (eraseKV l k).Sublist l := by
  induction l with
  | nil => simp [eraseKV]
  | cons e rest ih =>
    obtain ⟨k1, v1⟩ := e
    by_cases h1 : k1 = k
    · simpa [eraseKV, h1] using ih.cons (k1, v1)
    · simpa [eraseKV, h1] using ih.cons₂ (k1, v1)

theorem sorted_erase (l : List (K × V)) (k : K)
    (hs : SortedKeys l) : SortedKeys (eraseKV l k) :=
  List.Pairwise.sublist (erase_sublist l k) hs

theorem sorted_head_le (l : List (K × V)) (e : K × V)
    (hs : SortedKeys l) (hh : l.head? = some e) :
    ∀ x ∈ l, e.1 ≤ x.1 := by
  cases l with
  | nil => simp at hh
  | cons hd rest =>
    obtain rfl : hd = e := by injection hh
    rw [SortedKeys, List.pairwise_cons] at hs
    intro x hx
    rcases List.mem_cons.mp hx with h | h
    · exact h ▸ le_refl _
    · exact le_of_lt (hs.1 x h)

omit [LinearOrder K] in
theorem getLast?_mem (l : List (K × V)) (e : K × V)
    (hh : l.getLast? = some e) : e ∈ l := by
  induction l with
  | nil => simp at hh
  | cons hd rest ih =>
    cases rest with
    | nil =>
      obtain rfl : hd = e := by
        simpa [List.getLast?] using hh
      exact List.mem_cons_self _ _
    | cons hd2 t =>
      rw [List.getLast?_cons_cons] at hh
      exact List.mem_cons_of_mem _ (ih hh)

theorem sorted_le_getLast (l : List (K × V)) (e : K × V)
    (hs : SortedKeys l) (hh : l.getLast? = some e) :
    ∀ x ∈ l, x.1 ≤ e.1 := by
  induction l with
  | nil => simp at hh
  | cons hd rest ih =>
    rw [SortedKeys, List.pairwise_cons] at hs
    cases rest with
    | nil =>
      obtain rfl : hd = e := by
        simpa [List.getLast?] using hh
      intro x hx
      rcases List.mem_cons.mp hx with h | h
      · exact h ▸ le_refl _
      · simp at h
    | cons hd2 t =>
      rw [List.getLast?_cons_cons] at hh
      intro x hx
      rcases List.mem_cons.mp hx with h | h
      · have he : e ∈ hd2 :: t := getLast?_mem _ _ hh
        exact h ▸ le_of_lt (hs.1 e he)
      · exact ih hs.2 hh x h

end KVLemmas

/-! ### Lemmas about `levelSum` and the side selectors -/

theorem levelSum_insert_of_lookup_none
    (l : List (ℕ × (Side × ℚ × ℕ))) (oid : ℕ)
    (s : Side) (p : ℚ) (q : ℕ) (side : Side) (price : ℚ)
    (h : lookupKV l oid = none) :
    levelSum (insertKV l oid (s, p, q)) side price
      = (if s = side ∧ p = price then q else 0) + levelSum l side price := by
  induction l with
  | nil => simp [insertKV, levelSum]
  | cons e rest ih =>
    obtain ⟨k1, s1, p1, q1⟩ := e
    simp only [lookupKV] at h
    by_cases h2 : oid = k1
    · simp [h2] at h
    · simp only [if_neg h2] at h
      by_cases h1 : oid < k1
      · simp only [insertKV, if_pos h1, levelSum]
      · simp only [insertKV, if_neg h1, if_neg h2, levelSum, ih h]
        ring

theorem levelSum_erase_of_lookup
    (l : List (ℕ × (Side × ℚ × ℕ))) (oid : ℕ)
    (s : Side) (p : ℚ) (q : ℕ) (side : Side) (price : ℚ)
    (hs : SortedKeys l) (h : lookupKV l oid = some (s, p, q)) :
    levelSum (eraseKV l oid) side price
        + (if s = side ∧ p = price then q else 0)
      = levelSum l side price := by
  induction l with
  | nil => simp [lookupKV] at h
  | cons e rest ih =>
    obtain ⟨k1, s1, p1, q1⟩ := e
    rw [SortedKeys, List.pairwise_cons] at hs
    simp only [lookupKV] at h
    by_cases h2 : oid = k1
    · simp only [if_pos h2] at h
      obtain ⟨rfl, rfl, rfl⟩ : s1 = s ∧ p1 = p ∧ q1 = q := by
        refine ⟨?_, ?_, ?_⟩ <;> injection h with h' <;> simp_all
      have hrest : lookupKV rest oid = none := by
        apply lookup_none_of_forall_lt
        intro e he
        exact h2 ▸ hs.1 e he
      have h1 : k1 = oid := h2.symm
      simp only [eraseKV, if_pos h1, erase_of_lookup_none _ _ hrest, levelSum]
      omega
    · simp only [if_neg h2] at h
      have h1 : ¬ k1 = oid := fun hh => h2 hh.symm
      simp only [eraseKV, if_neg h1, levelSum]
      have := ih hs.2 h
      omega

theorem levelSum_insert_of_lookup
    (l : List (ℕ × (Side × ℚ × ℕ))) (oid : ℕ)
    (s s' : Side) (p p' : ℚ) (q q' : ℕ) (side : Side) (price : ℚ)
    (hs : SortedKeys l) (h : lookupKV l oid = some (s, p, q)) :
    levelSum (insertKV l oid (s', p', q')) side price
        + (if s = side ∧ p = price then q else 0)
      = levelSum l side price
        + (if s' = side ∧ p' = price then q' else 0) := by
  induction l with
  | nil => simp [lookupKV] at h
  | cons e rest ih =>
    obtain ⟨k1, s1, p1, q1⟩ := e
    rw [SortedKeys, List.pairwise_cons] at hs
    simp only [lookupKV] at h
    by_cases h2 : oid = k1
    · simp only [if_pos h2] at h
      obtain ⟨rfl, rfl, rfl⟩ : s1 = s ∧ p1 = p ∧ q1 = q := by
        refine ⟨?_, ?_, ?_⟩ <;> injection h with h' <;> simp_all
      have h1 : ¬ oid < k1 := by
        subst h2; exact lt_irrefl _
      simp only [insertKV, if_neg h1, if_pos h2, levelSum]
      ring
    · simp only [if_neg h2] at h
      have hmem : (oid, (s, p, q)) ∈ rest := lookup_mem _ _ _ h
      have hlt : k1 < oid := hs.1 _ hmem
      have h1 : ¬ oid < k1 := lt_asymm hlt
      simp only [insertKV, if_neg h1, if_neg h2, levelSum]
      have := ih hs.2 h
      rw [Nat.add_assoc, this, ← Nat.add_assoc]

theorem sideDepth_setSideDepth_same (b : OrderBook) (side : Side)
    (l : List (ℚ × ℕ)) :
    sideDepth (setSideDepth b side l) side = l := by
  cases side <;> rfl

theorem orders_setSideDepth (b : OrderBook) (side : Side)
    (l : List (ℚ × ℕ)) :
    (setSideDepth b side l).orders = b.orders := by
  cases side <;> rfl

theorem sideDepth_withOrders (b : OrderBook)
    (l : List (ℕ × (Side × ℚ × ℕ))) (side : Side) :
    sideDepth { b with orders := l } side = sideDepth b side := by
  cases side <;> rfl

/-- The internal consistency carried through reachable states: the three
maps are canonical, and every side's depth at every price (0 when the
level is absent) equals the aggregate quantity of the index's orders
resting there. -/
def Inv (b : OrderBook) : Prop :=
  WF b ∧ ∀ side price,
    (lookupKV (sideDepth b side) price).getD 0 = levelSum b.orders side price

theorem sideDepth_setSideDepth (b : OrderBook) (side side' : Side)
    (l : List (ℚ × ℕ)) :
    sideDepth (setSideDepth b side l) side'
      = if side' = side then l else sideDepth b side' := by
  cases side <;> cases side' <;> simp [sideDepth, setSideDepth]

theorem WF_sideDepth (b : OrderBook) (side : Side) (hb : WF b) :
    SortedKeys (sideDepth b side) := by
  cases side
  · exact hb.1
  · exact hb.2.1

theorem WF_setSideDepth (b : OrderBook) (side : Side) (l : List (ℚ × ℕ))
    (hb : WF b) (hl : SortedKeys l) : WF (setSideDepth b side l) := by
  cases side
  · exact ⟨hl, hb.2.1, hb.2.2⟩
  · exact ⟨hb.1, hl, hb.2.2⟩

theorem WF_withOrders (b : OrderBook) (l : List (ℕ × (Side × ℚ × ℕ)))
    (hb : WF b) (hl : SortedKeys l) : WF { b with orders := l } :=
  ⟨hb.1, hb.2.1, hl⟩

theorem inv_on_new_order (b b' : OrderBook) (side : Side) (price : ℚ)
    (q oid : ℕ) (hInv : Inv b)
    (h : on_new_order b side price q oid = (none, b')) : Inv b' := by
  obtain ⟨hWF, hD⟩ := hInv
  simp only [on_new_order] at h
  rw [Prod.mk.injEq] at h
  obtain ⟨h1, h2⟩ := h
  have hnone : lookupKV b.orders oid = none := by
    cases hx : lookupKV b.orders oid with
    | none => rfl
    | some v => rw [hx] at h1; simp at h1
  subst h2
  constructor
  · refine WF_withOrders _ _ ?_ ?_
    · exact WF_setSideDepth _ _ _ hWF (sorted_insert _ _ _ (WF_sideDepth b side hWF))
    · rw [orders_setSideDepth]
      exact sorted_insert _ _ _ hWF.2.2
  · intro side' price'
    simp only [sideDepth_withOrders, sideDepth_setSideDepth, orders_setSideDepth]
    rw [levelSum_insert_of_lookup_none _ _ _ _ _ _ _ hnone]
    by_cases hs' : side' = side
    · subst hs'
      rw [if_pos rfl]
      by_cases hp : price' = price
      · subst hp
        rw [lookup_insert_self]
        simp only [Option.getD_some, if_pos (And.intro rfl rfl)]
        rw [← hD side' price']
        exact Nat.add_comm _ _
      · have hc1 : ¬(side' = side' ∧ price = price') := fun hc => hp hc.2.symm
        rw [lookup_insert_ne _ _ _ _ hp, if_neg hc1, Nat.zero_add]
        exact hD side' price'
    · have hc1 : ¬(side = side' ∧ price = price') := fun hc => hs' hc.1.symm
      rw [if_neg hs', if_neg hc1, Nat.zero_add]
      exact hD side' price'

theorem inv_on_cancel_order (b b' : OrderBook) (oid : ℕ) (hInv : Inv b)
    (h : on_cancel_order b oid = (none, b')) : Inv b' := by
  obtain ⟨hWF, hD⟩ := hInv
  cases hx : lookupKV b.orders oid with
  | none => simp only [on_cancel_order, hx] at h; simp at h
  | some v =>
    obtain ⟨side, price, q⟩ := v
    simp only [on_cancel_order, hx, sideDepth_withOrders] at h
    cases hy : lookupKV (sideDepth b side) price with
    | none => simp only [hy] at h; simp at h
    | some d =>
      simp only [hy] at h
      by_cases hlt : d < q
      · simp only [if_pos hlt] at h; simp at h
      · simp only [if_neg hlt] at h
        rw [Prod.mk.injEq] at h
        obtain ⟨-, h2⟩ := h
        subst h2
        have hdq : d = levelSum b.orders side price := by
          have := hD side price
          rw [hy] at this
          simpa using this
        constructor
        · refine WF_setSideDepth _ _ _ ⟨hWF.1, hWF.2.1, sorted_erase _ _ hWF.2.2⟩ ?_
          by_cases hz : d - q = 0
          · rw [if_pos hz]
            exact sorted_erase _ _ (WF_sideDepth b side hWF)
          · rw [if_neg hz]
            exact sorted_insert _ _ _ (WF_sideDepth b side hWF)
        · intro side' price'
          have hE := levelSum_erase_of_lookup b.orders oid side price q side' price'
            hWF.2.2 hx
          simp only [sideDepth_setSideDepth, orders_setSideDepth, sideDepth_withOrders]
          by_cases hs' : side' = side
          · subst hs'
            rw [if_pos rfl]
            by_cases hp : price' = price
            · subst hp
              rw [if_pos (And.intro rfl rfl)] at hE
              rw [← hdq] at hE
              obtain ⟨L, hL⟩ : ∃ L,
                  levelSum (eraseKV b.orders oid) side' price' = L := ⟨_, rfl⟩
              rw [hL] at hE ⊢
              by_cases hz : d - q = 0
              · rw [if_pos hz, lookup_erase_self]
                simp only [Option.getD_none]
                omega
              · rw [if_neg hz, lookup_insert_self]
                simp only [Option.getD_some]
                omega
            · have hc1 : ¬(side' = side' ∧ price = price') := fun hc => hp hc.2.symm
              rw [if_neg hc1, Nat.add_zero] at hE
              by_cases hz : d - q = 0
              · rw [if_pos hz, lookup_erase_ne _ _ _ hp, hE]
                exact hD side' price'
              · rw [if_neg hz, lookup_insert_ne _ _ _ _ hp, hE]
                exact hD side' price'
          · have hc1 : ¬(side = side' ∧ price = price') := fun hc => hs' hc.1.symm
            rw [if_neg hc1, Nat.add_zero] at hE
            rw [if_neg hs', hE]
            exact hD side' price'

theorem inv_on_trade (b b' : OrderBook) (q oid : ℕ) (hInv : Inv b)
    (h : on_trade b q oid = (none, b')) : Inv b' := by
  obtain ⟨hWF, hD⟩ := hInv
  cases hx : lookupKV b.orders oid with
  | none => simp only [on_trade, hx] at h; simp at h
  | some v =>
    obtain ⟨side, price, rq⟩ := v
    simp only [on_trade, hx] at h
    by_cases hov : rq < q
    · simp only [if_pos hov] at h; simp at h
    · simp only [if_neg hov, sideDepth_withOrders] at h
      cases hy : lookupKV (sideDepth b side) price with
      | none => simp only [hy] at h; simp at h
      | some d =>
        simp only [hy] at h
        by_cases hdlt : d < q
        · simp only [if_pos hdlt] at h; simp at h
        · simp only [if_neg hdlt] at h
          rw [Prod.mk.injEq] at h
          obtain ⟨-, h2⟩ := h
          subst h2
          have hdq : d = levelSum b.orders side price := by
            have := hD side price
            rw [hy] at this
            simpa using this
          constructor
          · exact WF_setSideDepth _ _ _ ⟨hWF.1, hWF.2.1, sorted_insert _ _ _ hWF.2.2⟩
              (sorted_insert _ _ _ (WF_sideDepth b side hWF))
          · intro side' price'
            have hO := levelSum_insert_of_lookup b.orders oid side side price price
              rq (rq - q) side' price' hWF.2.2 hx
            simp only [sideDepth_setSideDepth, orders_setSideDepth, sideDepth_withOrders]
            by_cases hs' : side' = side
            · subst hs'
              rw [if_pos rfl]
              by_cases hp : price' = price
              · subst hp
                rw [lookup_insert_self]
                simp only [Option.getD_some]
                rw [if_pos (And.intro rfl rfl), if_pos (And.intro rfl rfl)] at hO
                rw [← hdq] at hO
                obtain ⟨L, hL⟩ : ∃ L,
                    levelSum (insertKV b.orders oid (side', price', rq - q))
                      side' price' = L := ⟨_, rfl⟩
                rw [hL] at hO ⊢
                omega
              · have hc1 : ¬(side' = side' ∧ price = price') := fun hc => hp hc.2.symm
                rw [if_neg hc1, if_neg hc1, Nat.add_zero, Nat.add_zero] at hO
                rw [lookup_insert_ne _ _ _ _ hp, hO]
                exact hD side' price'
            · have hc1 : ¬(side = side' ∧ price = price') := fun hc => hs' hc.1.symm
              rw [if_neg hc1, if_neg hc1, Nat.add_zero, Nat.add_zero] at hO
              rw [if_neg hs', hO]
              exact hD side' price'

theorem inv_on_replace_order (b b' : OrderBook) (price : ℚ) (q oid : ℕ)
    (hInv : Inv b) (h : on_replace_order b price q oid = (none, b')) : Inv b' := by
  cases hx : lookupKV b.orders oid with
  | none => simp only [on_replace_order, hx] at h; simp at h
  | some v =>
    obtain ⟨side, p0, q0⟩ := v
    simp only [on_replace_order, hx] at h
    cases hc : on_cancel_order b oid with
    | mk e? b1 =>
      rw [hc] at h
      cases e? with
      | some e => simp at h
      | none =>
        simp only [] at h
        exact inv_on_new_order b1 b' side price q oid
          (inv_on_cancel_order b b1 oid hInv hc) h

theorem reachable_inv (b : OrderBook) (h : Reachable b) : Inv b := by
  induction h with
  | empty =>
    constructor
    · exact ⟨List.Pairwise.nil, List.Pairwise.nil, List.Pairwise.nil⟩
    · intro side price
      cases side <;> simp [emptyBook, sideDepth, lookupKV, levelSum]
  | step hr happ ih =>
    rename_i b0 b1 op
    cases op with
    | place side price q oid => exact inv_on_new_order _ _ _ _ _ _ ih happ
    | cancel oid => exact inv_on_cancel_order _ _ _ ih happ
    | replace price q oid => exact inv_on_replace_order _ _ _ _ _ ih happ
    | trade q oid => exact inv_on_trade _ _ _ _ ih happ

/-! ### Behaviour of `on_cancel_order` needed for the actor's cleanup -/

theorem cancel_unknown (b : OrderBook) (oid : ℕ)
    (hx : lookupKV b.orders oid = none) :
    on_cancel_order b oid = (some .UnknownOrderId, b) := by
  simp [on_cancel_order, hx]

theorem cancel_error_internal (b b' : OrderBook) (oid : ℕ) (e : EngineError)
    (v : Side × ℚ × ℕ) (hx : lookupKV b.orders oid = some v)
    (h : on_cancel_order b oid = (some e, b')) : e = .InternalError := by
  obtain ⟨side, price, q⟩ := v
  simp only [on_cancel_order, hx] at h
  cases hy : lookupKV (sideDepth { b with orders := eraseKV b.orders oid } side) price with
  | none =>
    simp only [hy, Prod.mk.injEq] at h
    exact (Option.some.injEq _ _ ▸ h.1).symm
  | some d =>
    simp only [hy] at h
    by_cases hlt : d < q
    · simp only [if_pos hlt, Prod.mk.injEq] at h
      exact (Option.some.injEq _ _ ▸ h.1).symm
    · simp only [if_neg hlt] at h
      simp at h

theorem cancel_success_orders (b b1 : OrderBook) (oid : ℕ)
    (h : on_cancel_order b oid = (none, b1)) :
    b1.orders = eraseKV b.orders oid := by
  cases hx : lookupKV b.orders oid with
  | none => rw [cancel_unknown b oid hx] at h; simp at h
  | some v =>
    obtain ⟨side, price, q⟩ := v
    simp only [on_cancel_order, hx, sideDepth_withOrders] at h
    cases hy : lookupKV (sideDepth b side) price with
    | none => simp only [hy] at h; simp at h
    | some d =>
      simp only [hy] at h
      by_cases hlt : d < q
      · simp only [if_pos hlt] at h; simp at h
      · simp only [if_neg hlt] at h
        rw [Prod.mk.injEq] at h
        obtain ⟨-, h2⟩ := h
        rw [← h2, orders_setSideDepth]

theorem cancel_orders_shape (b : OrderBook) (oid : ℕ) :
    (on_cancel_order b oid).2.orders = b.orders
    ∨ (on_cancel_order b oid).2.orders = eraseKV b.orders oid := by
  cases hx : lookupKV b.orders oid with
  | none => left; simp [on_cancel_order, hx]
  | some v =>
    obtain ⟨side, price, q⟩ := v
    right
    simp only [on_cancel_order, hx, sideDepth_withOrders]
    cases hy : lookupKV (sideDepth b side) price with
    | none => simp [hy]
    | some d =>
      simp only [hy]
      by_cases hlt : d < q
      · simp [if_pos hlt]
      · simp [if_neg hlt, orders_setSideDepth]

theorem absent_preserved_cancel (b : OrderBook) (oid o : ℕ)
    (h : lookupKV b.orders o = none) :
    lookupKV (on_cancel_order b oid).2.orders o = none := by
  rcases cancel_orders_shape b oid with he | he <;> rw [he]
  · exact h
  · by_cases ho : o = oid
    · subst ho; exact lookup_erase_self _ _
    · rw [lookup_erase_ne _ _ _ ho]; exact h

theorem cancelAll_absent (L : List ℕ) (b : OrderBook) (o : ℕ)
    (h : lookupKV b.orders o = none) :
    lookupKV (cancelAll b L).2.orders o = none := by
  induction L generalizing b with
  | nil => exact h
  | cons oid rest ih =>
    simp only [cancelAll]
    cases hc : on_cancel_order b oid with
    | mk e? b1 =>
      cases e? with
      | none =>
        simp only []
        refine ih b1 ?_
        have := absent_preserved_cancel b oid o h
        rw [hc] at this
        exact this
      | some e =>
        simp only []
        have := absent_preserved_cancel b oid o h
        rw [hc] at this
        exact this

theorem cancelAll_success_absent (L : List ℕ) (b b' : OrderBook)
    (h : cancelAll b L = (none, b')) :
    ∀ o ∈ L, lookupKV b'.orders o = none := by
  induction L generalizing b with
  | nil => intro o ho; simp at ho
  | cons oid rest ih =>
    simp only [cancelAll] at h
    cases hc : on_cancel_order b oid with
    | mk e? b1 =>
      rw [hc] at h
      cases e? with
      | some e => simp at h
      | none =>
        simp only [] at h
        intro o ho
        rcases List.mem_cons.mp ho with rfl | hmem
        · have h1 : lookupKV b1.orders o = none := by
            rw [cancel_success_orders b b1 o hc]
            exact lookup_erase_self _ _
          have := cancelAll_absent rest b1 o h1
          rw [h] at this
          exact this
        · exact ih b1 h o hmem

theorem cancel_eval (b : OrderBook) (oid : ℕ) (side : Side) (price : ℚ)
    (q d : ℕ) (hx : lookupKV b.orders oid = some (side, price, q))
    (hy : lookupKV (sideDepth b side) price = some d) (hq : q ≤ d) :
    on_cancel_order b oid
      = (none, setSideDepth { b with orders := eraseKV b.orders oid } side
          (if d - q = 0 then eraseKV (sideDepth b side) price
           else insertKV (sideDepth b side) price (d - q))) := by
  have hlt : ¬ d < q := Nat.not_lt.mpr hq
  simp only [on_cancel_order, hx, sideDepth_withOrders, hy, if_neg hlt]

theorem setSideDepth_restore (b : OrderBook) (side : Side) (l : List (ℚ × ℕ)) :
    setSideDepth { setSideDepth b side l with orders := b.orders } side
      (sideDepth b side) = b := by
  cases side <;> rfl

/-! ### The claims -/

/-- C1, counterexample.  From the empty book, place Ask 12 × 5 as order 1
and then trade the full 5.  Both operations succeed, yet the Ask depth
mapping still contains price 12 with aggregate 0: a price level whose
aggregate reached zero is retained, refuting the claim that every present
level has aggregate strictly greater than 0. -/
theorem c1_counterexample :
    applyOp emptyBook (.place .Ask 12 5 1)
      = (none, ⟨[], [(12, 5)], [(1, (.Ask, 12, 5))]⟩)
    ∧ applyOp ⟨[], [(12, 5)], [(1, (.Ask, 12, 5))]⟩ (.trade 5 1)
      = (none, ⟨[], [(12, 0)], [(1, (.Ask, 12, 0))]⟩)
    ∧ lookupKV (OrderBook.asks ⟨[], [(12, 0)], [(1, (.Ask, 12, 0))]⟩) 12
      = some 0 := by
  decide

/-- C1 (amended).  After every sequence of successful engine operations
starting from the empty book, the aggregate stored at every price present
in a side's depth mapping equals the sum of the quantities of all orders
in the index on that side at that price.  (The strict-positivity half of
the original claim is false: `on_trade` retains a level it has reduced to
aggregate 0, see `c1_counterexample`.) -/
theorem c1_depth_eq_sum_of_reachable (b : OrderBook) (hb : Reachable b) :
    ∀ side price d, lookupKV (sideDepth b side) price = some d →
      d = levelSum b.orders side price := by
  intro side price d hl
  have hinv := (reachable_inv b hb).2 side price
  rw [hl] at hinv
  simpa using hinv

/-- C1, witness: the invariant evaluated on the book reached by one
placement. -/
theorem c1_witness :
    (5 : ℕ) = levelSum [(1, (Side.Ask, (12 : ℚ), (5 : ℕ)))] .Ask 12 :=
  c1_depth_eq_sum_of_reachable ⟨[], [(12, 5)], [(1, (.Ask, 12, 5))]⟩
    (@Reachable.step emptyBook ⟨[], [(12, 5)], [(1, (.Ask, 12, 5))]⟩
      (EngineOp.place .Ask 12 5 1) Reachable.empty (by decide))
    .Ask 12 5 (by decide)

/-- C2, counterexample.  Trading the full remaining quantity of order 1
succeeds but removes nothing: the order stays in the index with quantity 0
and the price level stays in the depth mapping with aggregate 0, refuting
the claimed removals. -/
theorem c2_counterexample :
    on_trade ⟨[], [(12, 5)], [(1, (.Ask, 12, 5))]⟩ 5 1
      = (none, ⟨[], [(12, 0)], [(1, (.Ask, 12, 0))]⟩)
    ∧ lookupKV (OrderBook.orders ⟨[], [(12, 0)], [(1, (.Ask, 12, 0))]⟩) 1
      = some (.Ask, 12, 0)
    ∧ lookupKV (OrderBook.asks ⟨[], [(12, 0)], [(1, (.Ask, 12, 0))]⟩) 12
      = some 0 := by
  decide

/-- C2 (amended).  Trading exactly the remaining quantity of an active
order succeeds, sets the order's recorded quantity to 0 and reduces the
level's aggregate by that quantity — but the order id remains in the index
and the price level remains in the side's depth mapping (possibly at
aggregate 0); `on_trade` removes neither. -/
theorem c2_full_trade_keeps_entries (b : OrderBook) (oid : ℕ) (side : Side)
    (price : ℚ) (rq d : ℕ)
    (hx : lookupKV b.orders oid = some (side, price, rq))
    (hy : lookupKV (sideDepth b side) price = some d) (hd : rq ≤ d) :
    (on_trade b rq oid).1 = none
    ∧ lookupKV (on_trade b rq oid).2.orders oid = some (side, price, 0)
    ∧ lookupKV (sideDepth (on_trade b rq oid).2 side) price = some (d - rq) := by
  have hov : ¬ rq < rq := Nat.lt_irrefl rq
  have hdlt : ¬ d < rq := Nat.not_lt.mpr hd
  simp only [on_trade, hx, if_neg hov, sideDepth_withOrders, hy, if_neg hdlt]
  refine ⟨trivial, ?_, ?_⟩
  · rw [orders_setSideDepth]
    rw [lookup_insert_self, Nat.sub_self]
  · rw [sideDepth_setSideDepth, if_pos rfl, lookup_insert_self]

/-- C2, witness: the amended statement evaluated on a one-order book. -/
theorem c2_witness :
    (on_trade ⟨[], [(12, 5)], [(1, (.Ask, 12, 5))]⟩ 5 1).1 = none
    ∧ lookupKV (on_trade ⟨[], [(12, 5)], [(1, (.Ask, 12, 5))]⟩ 5 1).2.orders 1
      = some (.Ask, 12, 0)
    ∧ lookupKV
        (sideDepth (on_trade ⟨[], [(12, 5)], [(1, (.Ask, 12, 5))]⟩ 5 1).2 .Ask) 12
      = some (5 - 5) :=
  c2_full_trade_keeps_entries ⟨[], [(12, 5)], [(1, (.Ask, 12, 5))]⟩ 1 .Ask 12 5 5
    (by decide) (by decide) (by decide)

/-- C4.  `on_trade` with a quantity strictly greater than the order's
remaining quantity fails with `OvertradeError` and returns the book
exactly as it was (in particular the order's recorded quantity and its
level's depth are unchanged); `on_trade` on an id absent from the index
fails with `UnknownOrderId`, also leaving the book unchanged. -/
theorem c4_trade_error_handling (b : OrderBook) (q oid : ℕ) :
    (∀ side price rq, lookupKV b.orders oid = some (side, price, rq) → rq < q →
        on_trade b q oid = (some .OvertradeError, b))
    ∧ (lookupKV b.orders oid = none →
        on_trade b q oid = (some .UnknownOrderId, b)) := by
  constructor
  · intro side price rq hx hov
    simp [on_trade, hx, hov]
  · intro hx
    simp [on_trade, hx]

/-- C4, witness: both failure modes evaluated on a one-order book. -/
theorem c4_witness :
    on_trade ⟨[], [(12, 5)], [(1, (.Ask, 12, 5))]⟩ 6 1
      = (some .OvertradeError, ⟨[], [(12, 5)], [(1, (.Ask, 12, 5))]⟩)
    ∧ on_trade ⟨[], [(12, 5)], [(1, (.Ask, 12, 5))]⟩ 6 9
      = (some .UnknownOrderId, ⟨[], [(12, 5)], [(1, (.Ask, 12, 5))]⟩) :=
  ⟨(c4_trade_error_handling ⟨[], [(12, 5)], [(1, (.Ask, 12, 5))]⟩ 6 1).1
      .Ask 12 5 (by decide) (by decide),
   (c4_trade_error_handling ⟨[], [(12, 5)], [(1, (.Ask, 12, 5))]⟩ 6 9).2
      (by decide)⟩

/-- C3, counterexample.  `on_new_order` on the already-active id 1 fails
with `DuplicateOrderId`, but the failed call has already bumped the Ask
depth at 12 from 5 to 8 and overwritten the index entry for id 1 with the
new attributes: the failed operation does not leave the book as it was. -/
theorem c3_counterexample :
    on_new_order ⟨[], [(12, 5)], [(1, (.Ask, 12, 5))]⟩ .Ask 12 3 1
      = (some .DuplicateOrderId, ⟨[], [(12, 8)], [(1, (.Ask, 12, 3))]⟩)
    ∧ (⟨[], [(12, 8)], [(1, (.Ask, 12, 3))]⟩ : OrderBook)
      ≠ ⟨[], [(12, 5)], [(1, (.Ask, 12, 5))]⟩ := by
  decide

/-- C3 (amended).  Every failing `cancel`, `trade`, `replace` or `size_at`
call that fails with one of the taxonomy errors (`UnknownOrderId`,
`OvertradeError`, `NoSuchPriceLevel`) leaves the book exactly as it was.
`place` on an already-active id is the exception: it fails with
`DuplicateOrderId` only after bumping the side's depth at the price by the
new quantity and overwriting the index entry for that id. -/
theorem c3_failure_atomicity (b : OrderBook) :
    (∀ oid e b', on_cancel_order b oid = (some e, b') →
        e ≠ .InternalError → b' = b)
    ∧ (∀ q oid e b', on_trade b q oid = (some e, b') →
        e ≠ .InternalError → b' = b)
    ∧ (∀ price q oid e b', on_replace_order b price q oid = (some e, b') →
        e ≠ .InternalError → b' = b)
    ∧ (∀ side price, (get_size_for_price_level b side price).2 = b)
    ∧ (∀ side price q oid v, lookupKV b.orders oid = some v →
        (on_new_order b side price q oid).1 = some .DuplicateOrderId
        ∧ lookupKV (on_new_order b side price q oid).2.orders oid
            = some (side, price, q)
        ∧ lookupKV (sideDepth (on_new_order b side price q oid).2 side) price
            = some ((lookupKV (sideDepth b side) price).getD 0 + q)) := by
  refine ⟨?_, ?_, ?_, ?_, ?_⟩
  · intro oid e b' h he
    cases hx : lookupKV b.orders oid with
    | none =>
      rw [cancel_unknown b oid hx] at h
      rw [Prod.mk.injEq] at h
      exact h.2.symm
    | some v => exact absurd (cancel_error_internal b b' oid e v hx h) he
  · intro q oid e b' h he
    cases hx : lookupKV b.orders oid with
    | none =>
      simp only [on_trade, hx, Prod.mk.injEq] at h
      exact h.2.symm
    | some v =>
      obtain ⟨side, price, rq⟩ := v
      simp only [on_trade, hx] at h
      by_cases hov : rq < q
      · simp only [if_pos hov, Prod.mk.injEq] at h
        exact h.2.symm
      · simp only [if_neg hov, sideDepth_withOrders] at h
        cases hy : lookupKV (sideDepth b side) price with
        | none =>
          simp only [hy, Prod.mk.injEq] at h
          injection h.1 with h1
          exact absurd h1.symm he
        | some d =>
          simp only [hy] at h
          by_cases hdlt : d < q
          · simp only [if_pos hdlt, Prod.mk.injEq] at h
            injection h.1 with h1
            exact absurd h1.symm he
          · simp only [if_neg hdlt] at h
            simp at h
  · intro price q oid e b' h he
    cases hx : lookupKV b.orders oid with
    | none =>
      simp only [on_replace_order, hx, Prod.mk.injEq] at h
      exact h.2.symm
    | some v =>
      obtain ⟨side, p0, q0⟩ := v
      simp only [on_replace_order, hx] at h
      cases hc : on_cancel_order b oid with
      | mk e1? b1 =>
        rw [hc] at h
        cases e1? with
        | some e1 =>
          simp only [] at h
          rw [Prod.mk.injEq] at h
          injection h.1 with h1
          have hint := cancel_error_internal b b1 oid e1 _ hx hc
          exact absurd (by rw [← h1]; exact hint) he
        | none =>
          simp only [] at h
          have hno : lookupKV b1.orders oid = none := by
            rw [cancel_success_orders b b1 oid hc]
            exact lookup_erase_self _ _
          simp [on_new_order, hno] at h
  · intro side price
    rfl
  · intro side price q oid v hx
    refine ⟨?_, ?_, ?_⟩
    · simp [on_new_order, hx]
    · simp [on_new_order, orders_setSideDepth, lookup_insert_self]
    · simp [on_new_order, sideDepth_withOrders, sideDepth_setSideDepth,
            lookup_insert_self]

/-- C3, witness: a failing cancel that leaves the one-order book unchanged,
and a duplicate place on it whose partial mutation is visible. -/
theorem c3_witness :
    (⟨[], [(12, 5)], [(1, (.Ask, 12, 5))]⟩ : OrderBook)
      = ⟨[], [(12, 5)], [(1, (.Ask, 12, 5))]⟩
    ∧ ((on_new_order ⟨[], [(12, 5)], [(1, (.Ask, 12, 5))]⟩ .Ask 12 3 1).1
        = some .DuplicateOrderId
      ∧ lookupKV (on_new_order ⟨[], [(12, 5)], [(1, (.Ask, 12, 5))]⟩
          .Ask 12 3 1).2.orders 1 = some (.Ask, 12, 3)
      ∧ lookupKV (sideDepth (on_new_order ⟨[], [(12, 5)], [(1, (.Ask, 12, 5))]⟩
          .Ask 12 3 1).2 .Ask) 12 = some 8) :=
  ⟨(c3_failure_atomicity ⟨[], [(12, 5)], [(1, (.Ask, 12, 5))]⟩).1 9
      .UnknownOrderId ⟨[], [(12, 5)], [(1, (.Ask, 12, 5))]⟩
      (by decide) (by decide),
   (c3_failure_atomicity ⟨[], [(12, 5)], [(1, (.Ask, 12, 5))]⟩).2.2.2.2
      .Ask 12 3 1 (.Ask, 12, 5) (by decide)⟩

/-- C5.  For an active order, `on_replace_order` is exactly
`on_cancel_order` followed by `on_new_order` under the same id and the
order's recorded side at the new price and quantity: a failing cancel makes
the replace fail identically, and after a successful cancel the replace is
the place itself — it succeeds, keeps the order under the same id and side
with the new price and quantity, and raises the new level's depth by the
new quantity. -/
theorem c5_replace_equiv_cancel_place (b : OrderBook) (oid : ℕ) (s : Side)
    (p0 : ℚ) (q0 : ℕ) (price : ℚ) (q : ℕ)
    (hx : lookupKV b.orders oid = some (s, p0, q0)) :
    (∀ e b1, on_cancel_order b oid = (some e, b1) →
        on_replace_order b price q oid = (some e, b1))
    ∧ (∀ b1, on_cancel_order b oid = (none, b1) →
        on_replace_order b price q oid = on_new_order b1 s price q oid
        ∧ (on_replace_order b price q oid).1 = none
        ∧ lookupKV (on_replace_order b price q oid).2.orders oid
            = some (s, price, q)
        ∧ lookupKV (sideDepth (on_replace_order b price q oid).2 s) price
            = some ((lookupKV (sideDepth b1 s) price).getD 0 + q)) := by
  constructor
  · intro e b1 hc
    simp only [on_replace_order, hx, hc]
  · intro b1 hc
    have h2 : on_replace_order b price q oid = on_new_order b1 s price q oid := by
      simp only [on_replace_order, hx, hc]
    have hno : lookupKV b1.orders oid = none := by
      rw [cancel_success_orders b b1 oid hc]
      exact lookup_erase_self _ _
    refine ⟨h2, ?_, ?_, ?_⟩
    · rw [h2]
      simp [on_new_order, hno]
    · rw [h2]
      simp [on_new_order, orders_setSideDepth, lookup_insert_self]
    · rw [h2]
      simp [on_new_order, sideDepth_withOrders, sideDepth_setSideDepth,
            lookup_insert_self]

/-- C5, witness: replacing the only order of a one-order book, with the
cancel-then-place decomposition evaluated. -/
theorem c5_witness :
    on_replace_order ⟨[], [(12, 5)], [(1, (.Ask, 12, 5))]⟩ 13 2 1
      = on_new_order ⟨[], [], []⟩ .Ask 13 2 1
    ∧ (on_replace_order ⟨[], [(12, 5)], [(1, (.Ask, 12, 5))]⟩ 13 2 1).1 = none
    ∧ lookupKV (on_replace_order ⟨[], [(12, 5)], [(1, (.Ask, 12, 5))]⟩
        13 2 1).2.orders 1 = some (.Ask, 13, 2)
    ∧ lookupKV (sideDepth (on_replace_order ⟨[], [(12, 5)], [(1, (.Ask, 12, 5))]⟩
        13 2 1).2 .Ask) 13 = some 2 :=
  (c5_replace_equiv_cancel_place ⟨[], [(12, 5)], [(1, (.Ask, 12, 5))]⟩ 1
      .Ask 12 5 13 2 (by decide)).2 ⟨[], [], []⟩ (by decide)

/-- C6, counterexample.  The state with a zero-aggregate Ask level at 12
(reachable: place Ask 12 × 5 as order 1, then trade the full 5) is not
restored by placing a fresh order 2 at that price and cancelling it: the
cancel deletes the whole level, losing the retained zero level. -/
theorem c6_counterexample :
    Reachable ⟨[], [(12, 0)], [(1, (.Ask, 12, 0))]⟩
    ∧ on_new_order ⟨[], [(12, 0)], [(1, (.Ask, 12, 0))]⟩ .Ask 12 3 2
      = (none, ⟨[], [(12, 3)], [(1, (.Ask, 12, 0)), (2, (.Ask, 12, 3))]⟩)
    ∧ on_cancel_order ⟨[], [(12, 3)], [(1, (.Ask, 12, 0)), (2, (.Ask, 12, 3))]⟩ 2
      = (none, ⟨[], [], [(1, (.Ask, 12, 0))]⟩)
    ∧ (⟨[], [], [(1, (.Ask, 12, 0))]⟩ : OrderBook)
      ≠ ⟨[], [(12, 0)], [(1, (.Ask, 12, 0))]⟩ := by
  refine ⟨?_, by decide, by decide, by decide⟩
  exact @Reachable.step ⟨[], [(12, 5)], [(1, (.Ask, 12, 5))]⟩
    ⟨[], [(12, 0)], [(1, (.Ask, 12, 0))]⟩ (.trade 5 1)
    (@Reachable.step emptyBook ⟨[], [(12, 5)], [(1, (.Ask, 12, 5))]⟩
      (.place .Ask 12 5 1) Reachable.empty (by decide))
    (by decide)

/-- C6 (amended).  Placing a fresh order and immediately cancelling it
returns the book exactly to its pre-place state, provided the book is well
formed and the targeted price level, if already present on that side, has
nonzero aggregate.  (For a retained zero level — reachable after a full
trade — the round trip deletes the level instead, see the
counterexample.) -/
theorem c6_place_cancel_roundtrip (b : OrderBook) (side : Side) (price : ℚ)
    (q oid : ℕ) (hWF : WF b) (hfresh : lookupKV b.orders oid = none)
    (hz : lookupKV (sideDepth b side) price ≠ some 0) :
    (on_new_order b side price q oid).1 = none
    ∧ on_cancel_order (on_new_order b side price q oid).2 oid = (none, b) := by
  constructor
  · simp [on_new_order, hfresh]
  · have hplace : (on_new_order b side price q oid).2
        = { setSideDepth b side (insertKV (sideDepth b side) price
              ((lookupKV (sideDepth b side) price).getD 0 + q)) with
            orders := insertKV b.orders oid (side, price, q) } := by
      simp [on_new_order, orders_setSideDepth]
    rw [hplace]
    have hsC : sideDepth { setSideDepth b side (insertKV (sideDepth b side) price
          ((lookupKV (sideDepth b side) price).getD 0 + q)) with
        orders := insertKV b.orders oid (side, price, q) } side
        = insertKV (sideDepth b side) price
            ((lookupKV (sideDepth b side) price).getD 0 + q) := by
      rw [sideDepth_withOrders, sideDepth_setSideDepth, if_pos rfl]
    have herase : eraseKV (insertKV b.orders oid (side, price, q)) oid
        = b.orders := erase_insert_of_lookup_none _ _ _ hfresh
    rw [cancel_eval _ oid side price q
        ((lookupKV (sideDepth b side) price).getD 0 + q)
        (lookup_insert_self b.orders oid (side, price, q))
        (by rw [hsC]; exact lookup_insert_self _ _ _)
        (Nat.le_add_left q _)]
    simp only [Nat.add_sub_cancel, hsC, herase]
    cases hly : lookupKV (sideDepth b side) price with
    | none =>
      simp only [Option.getD_none, if_true]
      rw [erase_insert_of_lookup_none _ _ _ hly]
      exact congrArg (Prod.mk none) (setSideDepth_restore b side _)
    | some d0 =>
      have hd0 : d0 ≠ 0 := by
        intro h0
        exact hz (by rw [hly, h0])
      simp only [Option.getD_some]
      rw [if_neg hd0, insert_insert,
          insert_eq_self_of_lookup _ _ _ (WF_sideDepth b side hWF) hly]
      exact congrArg (Prod.mk none) (setSideDepth_restore b side _)

/-- C6, witness: placing a fresh bid on a one-order book and cancelling it
restores the book. -/
theorem c6_witness :
    (on_new_order ⟨[], [(12, 5)], [(1, (.Ask, 12, 5))]⟩ .Bid 10 2 2).1 = none
    ∧ on_cancel_order
        (on_new_order ⟨[], [(12, 5)], [(1, (.Ask, 12, 5))]⟩ .Bid 10 2 2).2 2
      = (none, ⟨[], [(12, 5)], [(1, (.Ask, 12, 5))]⟩) :=
  c6_place_cancel_roundtrip ⟨[], [(12, 5)], [(1, (.Ask, 12, 5))]⟩ .Bid 10 2 2
    (by decide) (by decide) (by decide)

/-- C9.  `get_size_for_price_level` returns the aggregate stored at the
price when the level is present in the side's depth mapping, and fails
with `NoSuchPriceLevel` when it is absent — it never answers 0 for an
absent level; either way the book is returned unchanged. -/
theorem c9_size_for_price_level (b : OrderBook) (side : Side) (price : ℚ) :
    (∀ d, lookupKV (sideDepth b side) price = some d →
        get_size_for_price_level b side price = (.ok d, b))
    ∧ (lookupKV (sideDepth b side) price = none →
        get_size_for_price_level b side price = (.error .NoSuchPriceLevel, b)) := by
  constructor
  · intro d h
    simp [get_size_for_price_level, h]
  · intro h
    simp [get_size_for_price_level, h]

/-- C9, witness: both branches on a one-level book. -/
theorem c9_witness :
    get_size_for_price_level ⟨[], [(12, 5)], []⟩ .Ask 12
      = (.ok 5, ⟨[], [(12, 5)], []⟩)
    ∧ get_size_for_price_level ⟨[], [(12, 5)], []⟩ .Bid 12
      = (.error .NoSuchPriceLevel, ⟨[], [(12, 5)], []⟩) :=
  ⟨(c9_size_for_price_level ⟨[], [(12, 5)], []⟩ .Ask 12).1 5 (by decide),
   (c9_size_for_price_level ⟨[], [(12, 5)], []⟩ .Bid 12).2 (by decide)⟩

/-- C7, counterexample.  A server state in which client 0 owns order 5
while the book no longer contains it: processing `ClientDisconnected(0)`
does not ignore the vanished order — the cancel fails with
`UnknownOrderId` (fatal) and the client is not removed from the
registry. -/
theorem c7_counterexample :
    handleClientDisconnected ⟨emptyBook, 0, 1, [0], [(0, [5])]⟩ 0
      = (some .UnknownOrderId, ⟨emptyBook, 0, 1, [0], [(0, [5])]⟩)
    ∧ (⟨emptyBook, 0, 1, [0], [(0, [5])]⟩ : ServerState).clients = [0] := by
  decide

/-- C7 (amended).  Processing `ClientDisconnected` runs `cancel` over the
client's owned-order list in order (the resulting book is exactly
`cancelAll` of that list, and the handler's error is `cancelAll`'s error:
a vanished order makes the whole handler fail, with the registry left
untouched).  When every cancel succeeds, none of the listed orders remains
in the book's index, the client is removed from the registry, and its
owned-order list is dropped. -/
theorem c7_disconnect_cancels_owned (s : ServerState) (cid : ℕ) :
    (handleClientDisconnected s cid).1
      = (cancelAll s.order_book ((lookupKV s.client_orders cid).getD [])).1
    ∧ (handleClientDisconnected s cid).2.order_book
      = (cancelAll s.order_book ((lookupKV s.client_orders cid).getD [])).2
    ∧ ((handleClientDisconnected s cid).1 = none →
        (∀ o ∈ (lookupKV s.client_orders cid).getD [],
            lookupKV (handleClientDisconnected s cid).2.order_book.orders o = none)
        ∧ (handleClientDisconnected s cid).2.clients = removeNat s.clients cid
        ∧ lookupKV (handleClientDisconnected s cid).2.client_orders cid = none) := by
  cases hlo : lookupKV s.client_orders cid with
  | none =>
    simp only [handleClientDisconnected, hlo, Option.getD_none, cancelAll]
    refine ⟨by trivial, by trivial, fun _ => ⟨by simp, by trivial, lookup_erase_self _ _⟩⟩
  | some L =>
    simp only [handleClientDisconnected, hlo, Option.getD_some]
    cases hca : cancelAll s.order_book L with
    | mk e? b' =>
      cases e? with
      | some e =>
        simp only [hca]
        refine ⟨by trivial, by trivial, ?_⟩
        intro hcontra
        simp at hcontra
      | none =>
        simp only [hca]
        refine ⟨by trivial, by trivial, fun _ => ⟨?_, by trivial, lookup_erase_self _ _⟩⟩
        intro o ho
        exact cancelAll_success_absent L s.order_book b' hca o ho

/-- C7, witness: a client owning the single live order of the book; its
disconnection cancels that order, empties the book and drops the client. -/
theorem c7_witness :
    (∀ o ∈ (lookupKV
          (ServerState.client_orders
            ⟨⟨[], [(12, 5)], [(1, (.Ask, 12, 5))]⟩, 2, 1, [0], [(0, [1])]⟩)
          0).getD [],
        lookupKV (handleClientDisconnected
          ⟨⟨[], [(12, 5)], [(1, (.Ask, 12, 5))]⟩, 2, 1, [0], [(0, [1])]⟩
          0).2.order_book.orders o = none)
    ∧ (handleClientDisconnected
        ⟨⟨[], [(12, 5)], [(1, (.Ask, 12, 5))]⟩, 2, 1, [0], [(0, [1])]⟩
        0).2.clients
      = removeNat
          (ServerState.clients
            ⟨⟨[], [(12, 5)], [(1, (.Ask, 12, 5))]⟩, 2, 1, [0], [(0, [1])]⟩) 0
    ∧ lookupKV (handleClientDisconnected
        ⟨⟨[], [(12, 5)], [(1, (.Ask, 12, 5))]⟩, 2, 1, [0], [(0, [1])]⟩
        0).2.client_orders 0 = none :=
  (c7_disconnect_cancels_owned
    ⟨⟨[], [(12, 5)], [(1, (.Ask, 12, 5))]⟩, 2, 1, [0], [(0, [1])]⟩ 0).2.2
    (by decide)

theorem getLast?_of_ne_nil {α : Type} (l : List α) (h : l ≠ []) :
    ∃ e, l.getLast? = some e := by
  induction l with
  | nil => exact absurd rfl h
  | cons a t ih =>
    cases t with
    | nil => exact ⟨a, rfl⟩
    | cons a2 t2 =>
      obtain ⟨e, he⟩ := ih (by simp)
      exact ⟨e, by rw [List.getLast?_cons_cons]; exact he⟩

theorem head?_of_ne_nil {α : Type} (l : List α) (h : l ≠ []) :
    ∃ e, l.head? = some e := by
  cases l with
  | nil => exact absurd rfl h
  | cons a t => exact ⟨a, rfl⟩

theorem head?_mem {α : Type} (l : List α) (e : α) (hh : l.head? = some e) :
    e ∈ l := by
  cases l with
  | nil => simp at hh
  | cons a t =>
    obtain rfl : a = e := by injection hh
    exact List.mem_cons_self _ _

/-- C8.  On a nonempty side, `get_top_of_book` returns a price that is
present in that side's depth mapping and is the maximum of its prices for
Bid and the minimum for Ask; on an empty side it fails with `EmptyBook`. -/
theorem c8_top_of_book_extremum (b : OrderBook) (hWF : WF b) :
    (b.bids ≠ [] → ∃ p, get_top_of_book b .Bid = .ok p
      ∧ (lookupKV b.bids p).isSome = true
      ∧ ∀ q d, lookupKV b.bids q = some d → q ≤ p)
    ∧ (b.asks ≠ [] → ∃ p, get_top_of_book b .Ask = .ok p
      ∧ (lookupKV b.asks p).isSome = true
      ∧ ∀ q d, lookupKV b.asks q = some d → p ≤ q)
    ∧ (b.bids = [] → get_top_of_book b .Bid = .error .EmptyBook)
    ∧ (b.asks = [] → get_top_of_book b .Ask = .error .EmptyBook) := by
  refine ⟨?_, ?_, ?_, ?_⟩
  · intro hne
    obtain ⟨e, hl⟩ := getLast?_of_ne_nil b.bids hne
    refine ⟨e.1, ?_, ?_, ?_⟩
    · simp [get_top_of_book, hl]
    · exact lookup_isSome_of_mem _ e.1 e.2 (getLast?_mem _ _ hl)
    · intro q d hq
      exact sorted_le_getLast _ _ hWF.1 hl (q, d) (lookup_mem _ _ _ hq)
  · intro hne
    obtain ⟨e, hh⟩ := head?_of_ne_nil b.asks hne
    refine ⟨e.1, ?_, ?_, ?_⟩
    · simp [get_top_of_book, hh]
    · exact lookup_isSome_of_mem _ e.1 e.2 (head?_mem _ _ hh)
    · intro q d hq
      exact sorted_head_le _ _ hWF.2.1 hh (q, d) (lookup_mem _ _ _ hq)
  · intro hempty
    simp [get_top_of_book, hempty]
  · intro hempty
    simp [get_top_of_book, hempty]

/-- C8, witness: a book with two bid levels and no asks. -/
theorem c8_witness :
    (∃ p, get_top_of_book ⟨[(10, 2), (11, 3)], [], []⟩ .Bid = .ok p
      ∧ (lookupKV (OrderBook.bids ⟨[(10, 2), (11, 3)], [], []⟩) p).isSome = true
      ∧ ∀ q d, lookupKV (OrderBook.bids ⟨[(10, 2), (11, 3)], [], []⟩) q = some d →
          q ≤ p)
    ∧ get_top_of_book ⟨[(10, 2), (11, 3)], [], []⟩ .Ask = .error .EmptyBook :=
  ⟨(c8_top_of_book_extremum ⟨[(10, 2), (11, 3)], [], []⟩ (by decide)).1 (by decide),
   (c8_top_of_book_extremum ⟨[(10, 2), (11, 3)], [], []⟩ (by decide)).2.2.2 rfl⟩

/-- C10.  The only query taking the book by mutable reference,
`get_size_for_price_level`, hands the book back exactly as it received it
(its body only reads); `get_book_depth` and `get_top_of_book` take the
book immutably, so in the embedding they cannot touch it at all. -/
theorem c10_queries_leave_book_unchanged (b : OrderBook) (side : Side)
    (price : ℚ) : (get_size_for_price_level b side price).2 = b := rfl

end OrderLevel2
